import Mathlib

/-!
Verification of the expense-categorization engine of the finance telegram
bot.  Strings are modelled as lists of characters; the external embedding
backend (SentenceTransformer.encode) and the external vector normalization
(torch F.normalize) are modelled as abstract pure functions; similarity
scores are modelled as rationals.  All definitions are translated from
src/src/classifier/classifier.py and src/src/classifier.py.
-/

/-- Category enumeration from classifier.py (class Category, StrEnum). -/
inductive Category where
  | FOOD
  | TRANSPORT
  | FASTFOOD
  | ELECTRONICS
  | FINANCE
  | DIGITAL
  | HEALTH
  | UTILITIES
  | HOUSEHOLD
  | CLOTHING
  | BEAUTY
  | LEISURE
  | PETS
  | UNKNOWN
  deriving DecidableEq, Repr

/-- The stable string code of each category (the StrEnum values). -/
def Category.value : Category → String
  | .FOOD => "needs:food"
  | .TRANSPORT => "needs:transport"
  | .FASTFOOD => "fun:fastfood"
  | .ELECTRONICS => "wants:electronics"
  | .FINANCE => "skip:finance"
  | .DIGITAL => "other:digital"
  | .HEALTH => "needs:health"
  | .UTILITIES => "needs:utilities"
  | .HOUSEHOLD => "needs:household"
  | .CLOTHING => "wants:clothing"
  | .BEAUTY => "wants:beauty"
  | .LEISURE => "fun:leisure"
  | .PETS => "needs:pets"
  | .UNKNOWN => "unknown:check_me"

/-- Uppercase-to-lowercase character table covering the ASCII Latin and the
Russian Cyrillic alphabets, the alphabets occurring in the classifier's
data.  Models Python str.lower on these alphabets. -/
def lowerPairs : List (Char × Char) :=
  [('A', 'a'), ('B', 'b'), ('C', 'c'), ('D', 'd'), ('E', 'e'), ('F', 'f'),
   ('G', 'g'), ('H', 'h'), ('I', 'i'), ('J', 'j'), ('K', 'k'), ('L', 'l'),
   ('M', 'm'), ('N', 'n'), ('O', 'o'), ('P', 'p'), ('Q', 'q'), ('R', 'r'),
   ('S', 's'), ('T', 't'), ('U', 'u'), ('V', 'v'), ('W', 'w'), ('X', 'x'),
   ('Y', 'y'), ('Z', 'z'), ('А', 'а'), ('Б', 'б'), ('В', 'в'), ('Г', 'г'),
   ('Д', 'д'), ('Е', 'е'), ('Ж', 'ж'), ('З', 'з'), ('И', 'и'), ('Й', 'й'),
   ('К', 'к'), ('Л', 'л'), ('М', 'м'), ('Н', 'н'), ('О', 'о'), ('П', 'п'),
   ('Р', 'р'), ('С', 'с'), ('Т', 'т'), ('У', 'у'), ('Ф', 'ф'), ('Х', 'х'),
   ('Ц', 'ц'), ('Ч', 'ч'), ('Ш', 'ш'), ('Щ', 'щ'), ('Ъ', 'ъ'), ('Ы', 'ы'),
   ('Ь', 'ь'), ('Э', 'э'), ('Ю', 'ю'), ('Я', 'я'), ('Ё', 'ё')]

/-- Lower-case one character (Python str.lower, per character). -/
def pyLowerChar (c : Char) : Char :=
  match lowerPairs.find? (fun p => p.1 == c) with
  | some p => p.2
  | none => c

/-- Lower-case a whole text (Python str.lower). -/
def pyLower (s : List Char) : List Char :=
  s.map pyLowerChar

/-- Whitespace characters recognized by Python str.split() on the ASCII
range. -/
def isPySpace (c : Char) : Bool :=
  c == ' ' || c == '\t' || c == '\n' || c == '\r' || c == '\x0b' || c == '\x0c'

/-- Python text.replace of the single character bar with a space. -/
def replacePipe (s : List Char) : List Char :=
  s.map (fun c => if c == '|' then ' ' else c)

/-- Whether the first list is a prefix of the second, as a boolean. -/
def listPrefixEq : List Char → List Char → Bool
  | [], _ => true
  | _ :: _, [] => false
  | a :: as, b :: bs => a == b && listPrefixEq as bs

/-- Python substring containment: inSubstr pat hay decides pat in hay. -/
def inSubstr (pat : List Char) : List Char → Bool
  | [] => pat.isEmpty
  | c :: cs => listPrefixEq pat (c :: cs) || inSubstr pat cs

/-- Python str.split(): split on whitespace runs, dropping empty pieces. -/
def splitWs (s : List Char) : List (List Char) :=
  match s with
  | [] => []
  | c :: cs =>
    if isPySpace c then splitWs cs
    else (c :: cs.takeWhile (fun d => !isPySpace d))
      :: splitWs (cs.dropWhile (fun d => !isPySpace d))
termination_by s.length
decreasing_by
  · simp only [List.length_cons]
    omega
  · simp only [List.length_cons]
    exact Nat.lt_succ_of_le (List.dropWhile_sublist _).length_le

/-- Python " ".join over a list of tokens. -/
def joinSpace : List (List Char) → List Char
  | [] => []
  | [w] => w
  | w :: ws => w ++ ' ' :: joinSpace ws

/-- The noise stop-word set of clean_text (a Python set literal). -/
def noiseList : List (List Char) :=
  ["купил".data, "оплатил".data, "оплата".data, "чек".data,
   "покупка".data, "за".data, "в".data, "на".data]

/-- clean_text from classifier.py: lower-case, replace bar with space,
split on whitespace, drop noise words, rejoin with single spaces. -/
def clean_text (text : List Char) : List Char :=
  let words := splitWs (replacePipe (pyLower text))
  joinSpace (words.filter (fun w => !(noiseList.contains w)))

/-- The tokens that clean_text joins (the filtered word list). -/
def cleanToks (text : List Char) : List (List Char) :=
  (splitWs (replacePipe (pyLower text))).filter (fun w => !(noiseList.contains w))

/-- The rule table of hard_rules_match, in its Python insertion order. -/
def rulesList : List (List Char × Category) :=
  [("иис".data, Category.FINANCE),
   ("брокер".data, Category.FINANCE),
   ("инвестиц".data, Category.FINANCE),
   ("перевод".data, Category.FINANCE),
   ("жижа".data, Category.LEISURE),
   ("картридж".data, Category.LEISURE),
   ("дубай".data, Category.HOUSEHOLD),
   ("дубаи".data, Category.HOUSEHOLD),
   ("впн".data, Category.DIGITAL),
   ("vpn".data, Category.DIGITAL),
   ("чизбургер".data, Category.FASTFOOD),
   ("бургер".data, Category.FASTFOOD),
   ("мышь".data, Category.ELECTRONICS)]

/-- The for-loop of hard_rules_match over the rule table. -/
def findRule (clean : List Char) : List (List Char × Category) → Option Category
  | [] => none
  | (trig, cat) :: rest =>
    if inSubstr trig clean then some cat else findRule clean rest

/-- hard_rules_match from classifier.py: lower-case the raw text and return
the category of the first trigger that is a substring, else none. -/
def hard_rules_match (text : List Char) : Option Category :=
  findRule (pyLower text) rulesList

/-- Embedding vectors, modelled as lists of rationals. -/
abbrev Vec := List ℚ

/-- Dot product of two vectors (one row of torch.mm). -/
def dot (u v : Vec) : ℚ :=
  (List.zipWith (fun a b => a * b) u v).sum

/-- Index bookkeeping of torch.argmax: first index of the maximum, scanning
left to right.  i is the index of the head of the remaining list, best the
best index so far and bv its value. -/
def argmaxAux (i best : ℕ) (bv : ℚ) : List ℚ → ℕ
  | [] => best
  | x :: xs => if bv < x then argmaxAux (i + 1) i x xs else argmaxAux (i + 1) best bv xs

/-- torch.argmax over a score list: index of the first maximal entry. -/
def argmaxIdx : List ℚ → ℕ
  | [] => 0
  | x :: xs => argmaxAux 1 0 x xs

/-- ClassifierModel from classifier.py: the frozen dataclass holding the
embedding backend handle, the anchor-embedding matrix, the parallel
category list and the similarity threshold.  The SentenceTransformer
handle is modelled by its encode function, a pure map from text to a
vector. -/
structure ClassifierModel where
  encode : List Char → Vec
  anchor_embeddings : List Vec
  anchor_to_cat : List Category
  threshold : ℚ := 82 / 100

/-- The query string built by predict: the literal query prefix followed by
the cleaned text. -/
def queryOf (cleaned : List Char) : List Char :=
  "query: ".data ++ cleaned

/-- The encoded and normalized query embedding of predict; fnorm models the
external torch F.normalize row operation. -/
def queryEmb (fnorm : Vec → Vec) (md : ClassifierModel) (text : List Char) : Vec :=
  fnorm (md.encode (queryOf (clean_text text)))

/-- The score row of predict: dot product of the query embedding against
every anchor row (torch.mm against the transposed anchor matrix). -/
def semScores (fnorm : Vec → Vec) (md : ClassifierModel) (text : List Char) : List ℚ :=
  md.anchor_embeddings.map (fun a => dot (queryEmb fnorm md text) a)

/-- predict from classifier.py: hard rules first; otherwise clean the text,
embed the prefixed query, score against the anchors, take the argmax, and
answer UNKNOWN when the winning score is below the threshold. -/
def predict (fnorm : Vec → Vec) (md : ClassifierModel) (text : List Char) : Category :=
  match hard_rules_match text with
  | some rule_result => rule_result
  | none =>
    let scores := semScores fnorm md text
    let best_idx := argmaxIdx scores
    let confidence := scores.getD best_idx 0
    if confidence < md.threshold then Category.UNKNOWN
    else md.anchor_to_cat.getD best_idx Category.UNKNOWN

/-- ExpenseClassifier.classify from classifier.py: run predict and return
the string code of the category. -/
def classify (fnorm : Vec → Vec) (md : ClassifierModel) (text : List Char) : String :=
  (predict fnorm md text).value

/-- Wrapper state of the ExpenseClassifier class: it holds the model data
built once at startup. -/
structure ExpenseClassifierState where
  model_data : ClassifierModel

/-- One call of the classify method on the wrapper, returning the category
code together with the state the wrapper holds after the call. -/
def classifyCall (fnorm : Vec → Vec) (st : ExpenseClassifierState) (text : List Char) :
    String × ExpenseClassifierState :=
  ((predict fnorm st.model_data text).value, st)

/-- Semantic-classifier contract written from the specification, section
4.4: normalize, prepend the query prefix, encode and L2-normalize (the
external fnorm), dot against every anchor row, take the index of the
maximum score as the winner and its score as the confidence, answer
UNKNOWN below the threshold and otherwise the category at the winning
index. -/
def classify_semantic_spec (fnorm : Vec → Vec) (md : ClassifierModel) (text : List Char) :
    Category :=
  let normalized := clean_text text
  let prefixed := "query: ".data ++ normalized
  let qvec := fnorm (md.encode prefixed)
  let scores := md.anchor_embeddings.map (fun a => dot qvec a)
  let winner := argmaxIdx scores
  let confidence := scores.getD winner 0
  if confidence < md.threshold then Category.UNKNOWN
  else md.anchor_to_cat.getD winner Category.UNKNOWN

/-- Normalizer contract written from the specification, section 4.1:
lower-case, replace the bar delimiter by whitespace, tokenize on
whitespace, drop stop words, rejoin with single spaces. -/
def normalize_spec (raw : List Char) : List Char :=
  joinSpace ((splitWs (replacePipe (pyLower raw))).filter
    (fun w => decide (w ∉ noiseList)))

/-- Keyword map of the superseded trivial classifier src/src/classifier.py,
in insertion order. -/
def KEYWORDS_MAP : List (List Char × String) :=
  [("магнит".data, "needs:food"),
   ("пятероч".data, "needs:food"),
   ("перекрест".data, "needs:food"),
   ("еда".data, "needs:food"),
   ("такси".data, "needs:transport"),
   ("метро".data, "needs:transport"),
   ("автобус".data, "needs:transport"),
   ("кофе".data, "fun:fastfood"),
   ("мак".data, "fun:fastfood"),
   ("бургер".data, "fun:fastfood"),
   ("игра".data, "fun:fastfood"),
   ("steam".data, "fun:fastfood"),
   ("наушник".data, "wants:electronics"),
   ("клава".data, "wants:electronics"),
   ("мышк".data, "wants:electronics")]

/-- The for-loop of the trivial classifier, falling through to the default
category. -/
def kwClassifyGo (lowered : List Char) : List (List Char × String) → String
  | [] => "needs:food"
  | (k, v) :: rest => if inSubstr k lowered then v else kwClassifyGo lowered rest

/-- classify of the superseded trivial classifier src/src/classifier.py:
first keyword whose trigger is a substring of the lowered text, else the
default category needs:food. -/
def kwClassify (text : List Char) : String :=
  kwClassifyGo (pyLower text) KEYWORDS_MAP

/-- Concrete one-anchor classifier model whose single score is exactly the
threshold, used as an explicit input below. -/
def cmBoundary : ClassifierModel :=
  ClassifierModel.mk (fun _ => [(1 : ℚ), 0]) [[(82 : ℚ) / 100, 0]]
    [Category.FOOD] ((82 : ℚ) / 100)

/-- Concrete trivial classifier model used as an explicit input below. -/
def cmTrivial : ClassifierModel :=
  ClassifierModel.mk (fun _ => [(1 : ℚ)]) [[(0 : ℚ)]] [Category.FOOD] ((82 : ℚ) / 100)

/-! ### Helper lemmas about the string primitives -/

theorem listPrefixEq_iff (u v : List Char) :
    listPrefixEq u v = true ↔ ∃ r, v = u ++ r := by
  induction u generalizing v with
  | nil => simp [listPrefixEq]
  | cons a as ih =>
    cases v with
    | nil => simp [listPrefixEq]
    | cons b bs =>
      simp only [listPrefixEq, Bool.and_eq_true, beq_iff_eq, ih]
      constructor
      · rintro ⟨rfl, r, rfl⟩
        exact ⟨r, rfl⟩
      · rintro ⟨r, h⟩
        cases h
        exact ⟨rfl, r, rfl⟩

theorem inSubstr_iff (pat hay : List Char) :
    inSubstr pat hay = true ↔ ∃ l r, hay = l ++ pat ++ r := by
  induction hay with
  | nil =>
    simp only [inSubstr, List.isEmpty_iff]
    constructor
    · rintro rfl
      exact ⟨[], [], rfl⟩
    · rintro ⟨l, r, h⟩
      rcases List.append_eq_nil.mp h.symm with ⟨h1, h2⟩
      exact (List.append_eq_nil.mp h1).2
  | cons c cs ih =>
    simp only [inSubstr, Bool.or_eq_true, listPrefixEq_iff, ih]
    constructor
    · rintro (⟨r, h⟩ | ⟨l, r, h⟩)
      · exact ⟨[], r, by simp [h]⟩
      · exact ⟨c :: l, r, by simp [h]⟩
    · rintro ⟨l, r, h⟩
      cases l with
      | nil => exact Or.inl ⟨r, by simpa using h⟩
      | cons x xs =>
        simp only [List.cons_append, List.cons.injEq] at h
        exact Or.inr ⟨xs, r, h.2⟩

theorem splitWs_nil : splitWs [] = [] := by
  rw [splitWs]

theorem splitWs_cons_space (c : Char) (cs : List Char) (h : isPySpace c = true) :
    splitWs (c :: cs) = splitWs cs := by
  rw [splitWs]
  simp [h]

theorem splitWs_cons_tok (c : Char) (cs : List Char) (h : isPySpace c = false) :
    splitWs (c :: cs) =
      (c :: cs.takeWhile (fun d => !isPySpace d))
        :: splitWs (cs.dropWhile (fun d => !isPySpace d)) := by
  rw [splitWs]
  simp [h]

theorem takeWhile_app (p : Char → Bool) (l₁ l₂ : List Char) (h : ∀ a ∈ l₁, p a = true) :
    (l₁ ++ l₂).takeWhile p = l₁ ++ l₂.takeWhile p := by
  induction l₁ with
  | nil => simp
  | cons a as ih =>
    simp only [List.cons_append, List.takeWhile_cons, h a (by simp), if_true,
      List.cons.injEq, true_and]
    exact ih fun b hb => h b (by simp [hb])

theorem dropWhile_app (p : Char → Bool) (l₁ l₂ : List Char) (h : ∀ a ∈ l₁, p a = true) :
    (l₁ ++ l₂).dropWhile p = l₂.dropWhile p := by
  induction l₁ with
  | nil => simp
  | cons a as ih =>
    simp only [List.cons_append, List.dropWhile_cons, h a (by simp), if_true]
    exact ih fun b hb => h b (by simp [hb])

theorem splitWs_toks (s : List Char) :
    ∀ w ∈ splitWs s, w ≠ [] ∧ ∀ c ∈ w, isPySpace c = false ∧ c ∈ s := by
  induction s using splitWs.induct with
  | case1 =>
    simp [splitWs_nil]
  | case2 c cs h ih =>
    rw [splitWs_cons_space c cs h]
    intro w hw
    rcases ih w hw with ⟨hne, hch⟩
    exact ⟨hne, fun d hd => ⟨(hch d hd).1, List.mem_cons_of_mem c (hch d hd).2⟩⟩
  | case3 c cs h ih =>
    rw [splitWs_cons_tok c cs (Bool.not_eq_true _ ▸ eq_false_of_ne_true h)]
    intro w hw
    rcases List.mem_cons.mp hw with rfl | hw'
    · refine ⟨by simp, fun d hd => ?_⟩
      rcases List.mem_cons.mp hd with rfl | hd'
      · exact ⟨eq_false_of_ne_true h, List.mem_cons_self _ _⟩
      · have hp := List.mem_takeWhile_imp hd'
        simp only [Bool.not_eq_true'] at hp
        exact ⟨hp, List.mem_cons_of_mem c ((List.takeWhile_sublist _).subset hd')⟩
    · rcases ih w hw' with ⟨hne, hch⟩
      refine ⟨hne, fun d hd => ⟨(hch d hd).1, ?_⟩⟩
      exact List.mem_cons_of_mem c ((List.dropWhile_sublist _).subset (hch d hd).2)

theorem splitWs_joinSpace (W : List (List Char))
    (h : ∀ w ∈ W, w ≠ [] ∧ ∀ c ∈ w, isPySpace c = false) :
    splitWs (joinSpace W) = W := by
  induction W with
  | nil => exact splitWs_nil
  | cons w ws ih =>
    rcases h w (List.mem_cons_self _ _) with ⟨hne, hch⟩
    cases w with
    | nil => exact absurd rfl hne
    | cons c w' =>
      have hc : isPySpace c = false := hch c (List.mem_cons_self _ _)
      have hw' : ∀ d ∈ w', (fun d => !isPySpace d) d = true := by
        intro d hd
        simp [hch d (List.mem_cons_of_mem c hd)]
      cases ws with
      | nil =>
        simp only [joinSpace]
        rw [splitWs_cons_tok c w' hc]
        simp [List.takeWhile_eq_self_iff.mpr hw', List.dropWhile_eq_nil_iff.mpr hw',
          splitWs_nil]
      | cons w₂ ws' =>
        have hjoin : joinSpace ((c :: w') :: w₂ :: ws') =
            (c :: w') ++ ' ' :: joinSpace (w₂ :: ws') := rfl
        rw [hjoin, List.cons_append, splitWs_cons_tok c (w' ++ ' ' :: joinSpace (w₂ :: ws')) hc,
          takeWhile_app _ w' _ hw', dropWhile_app _ w' _ hw']
        have hsp : (' ' :: joinSpace (w₂ :: ws')).takeWhile (fun d => !isPySpace d) = [] := by
          simp [List.takeWhile_cons, isPySpace]
        have hdp : (' ' :: joinSpace (w₂ :: ws')).dropWhile (fun d => !isPySpace d) =
            ' ' :: joinSpace (w₂ :: ws') := by
          simp [List.dropWhile_cons, isPySpace]
        rw [hsp, hdp, List.append_nil, splitWs_cons_space _ _ (by simp [isPySpace])]
        exact congrArg _ (ih fun v hv => h v (List.mem_cons_of_mem (c :: w') hv))

theorem mem_joinSpace (c : Char) (W : List (List Char)) (h : c ∈ joinSpace W) :
    c = ' ' ∨ ∃ w ∈ W, c ∈ w := by
  induction W with
  | nil => simp [joinSpace] at h
  | cons w ws ih =>
    cases ws with
    | nil =>
      simp only [joinSpace] at h
      exact Or.inr ⟨w, List.mem_cons_self _ _, h⟩
    | cons w₂ ws' =>
      have hj : joinSpace (w :: w₂ :: ws') = w ++ ' ' :: joinSpace (w₂ :: ws') := rfl
      rw [hj] at h
      rcases List.mem_append.mp h with hw | hrest
      · exact Or.inr ⟨w, List.mem_cons_self _ _, hw⟩
      · rcases List.mem_cons.mp hrest with rfl | h'
        · exact Or.inl rfl
        · rcases ih h' with hsp | ⟨v, hv, hcv⟩
          · exact Or.inl hsp
          · exact Or.inr ⟨v, List.mem_cons_of_mem w hv, hcv⟩

theorem pyLowerChar_image_fixed :
    ∀ p ∈ lowerPairs, pyLowerChar p.2 = p.2 := by
  decide

theorem pyLowerChar_idem (c : Char) :
    pyLowerChar (pyLowerChar c) = pyLowerChar c := by
  unfold pyLowerChar
  cases hf : lowerPairs.find? (fun p => p.1 == c) with
  | none => rw [hf]
  | some p =>
    have hmem : p ∈ lowerPairs := List.mem_of_find?_eq_some hf
    have := pyLowerChar_image_fixed p hmem
    unfold pyLowerChar at this
    exact this

theorem space_lower_fixed : pyLowerChar ' ' = ' ' := by
  decide

theorem prepChars (x : List Char) :
    ∀ c ∈ replacePipe (pyLower x), pyLowerChar c = c ∧ c ≠ '|' := by
  intro c hc
  simp only [replacePipe, pyLower, List.map_map, List.mem_map, Function.comp] at hc
  rcases hc with ⟨a, _, hca⟩
  by_cases hp : pyLowerChar a == '|'
  · rw [if_pos hp] at hca
    rw [← hca]
    exact ⟨space_lower_fixed, by decide⟩
  · rw [if_neg hp] at hca
    refine ⟨?_, ?_⟩
    · rw [← hca]
      exact pyLowerChar_idem a
    · rw [← hca]
      simpa using hp

theorem map_fixed {f : Char → Char} {l : List Char} (h : ∀ c ∈ l, f c = c) :
    l.map f = l := by
  induction l with
  | nil => rfl
  | cons a as ih =>
    simp only [List.map_cons, h a (List.mem_cons_self _ _), List.cons.injEq, true_and]
    exact ih fun c hc => h c (List.mem_cons_of_mem a hc)

theorem cleanToks_good (x : List Char) :
    ∀ w ∈ cleanToks x,
      (w ≠ [] ∧ ∀ c ∈ w, isPySpace c = false ∧ pyLowerChar c = c ∧ c ≠ '|') ∧
        noiseList.contains w = false := by
  intro w hw
  rcases List.mem_filter.mp hw with ⟨hmem, hpred⟩
  rcases splitWs_toks _ w hmem with ⟨hne, hch⟩
  refine ⟨⟨hne, fun c hc => ?_⟩, by simpa using hpred⟩
  rcases hch c hc with ⟨hsp, hsrc⟩
  rcases prepChars x c hsrc with ⟨hfix, hpipe⟩
  exact ⟨hsp, hfix, hpipe⟩

theorem clean_text_eq_join (x : List Char) :
    clean_text x = joinSpace (cleanToks x) := rfl

theorem clean_text_fixed (W : List (List Char))
    (h : ∀ w ∈ W,
      (w ≠ [] ∧ ∀ c ∈ w, isPySpace c = false ∧ pyLowerChar c = c ∧ c ≠ '|') ∧
        noiseList.contains w = false) :
    clean_text (joinSpace W) = joinSpace W := by
  have hlower : pyLower (joinSpace W) = joinSpace W := by
    apply map_fixed
    intro c hc
    rcases mem_joinSpace c W hc with rfl | ⟨w, hw, hcw⟩
    · exact space_lower_fixed
    · exact ((h w hw).1.2 c hcw).2.1
  have hpipe : replacePipe (joinSpace W) = joinSpace W := by
    apply map_fixed
    intro c hc
    rcases mem_joinSpace c W hc with rfl | ⟨w, hw, hcw⟩
    · simp
    · have := ((h w hw).1.2 c hcw).2.2
      simp [this]
  have hsplit : splitWs (joinSpace W) = W :=
    splitWs_joinSpace W fun w hw => ⟨(h w hw).1.1, fun c hc => ((h w hw).1.2 c hc).1⟩
  show joinSpace ((splitWs (replacePipe (pyLower (joinSpace W)))).filter _) = joinSpace W
  rw [hlower, hpipe, hsplit]
  congr 1
  apply List.filter_eq_self.mpr
  intro w hw
  simp only [Bool.not_eq_true']
  exact (h w hw).2

theorem chain'_of_no_space (w : List Char) (h : ∀ c ∈ w, isPySpace c = false) :
    List.Chain' (fun a b => ¬(a = ' ' ∧ b = ' ')) w := by
  induction w with
  | nil => exact List.chain'_nil
  | cons a as ih =>
    cases as with
    | nil => exact List.chain'_singleton _
    | cons b bs =>
      refine List.chain'_cons.mpr ⟨?_, ih fun c hc => h c (List.mem_cons_of_mem a hc)⟩
      rintro ⟨ha, hb⟩
      have hsp := h a (List.mem_cons_self _ _)
      rw [ha] at hsp
      simp [isPySpace] at hsp

theorem joinSpace_ne_nil (W : List (List Char)) (hW : W ≠ [])
    (h : ∀ w ∈ W, w ≠ []) : joinSpace W ≠ [] := by
  cases W with
  | nil => exact absurd rfl hW
  | cons w ws =>
    cases ws with
    | nil => exact h w (List.mem_cons_self _ _)
    | cons w₂ ws' =>
      show w ++ ' ' :: joinSpace (w₂ :: ws') ≠ []
      simp

theorem joinSpace_head (W : List (List Char))
    (h : ∀ w ∈ W, w ≠ [] ∧ ∀ c ∈ w, isPySpace c = false) :
    ∀ a, (joinSpace W).head? = some a → isPySpace a = false := by
  cases W with
  | nil => simp [joinSpace]
  | cons w ws =>
    rcases h w (List.mem_cons_self _ _) with ⟨hne, hch⟩
    cases w with
    | nil => exact absurd rfl hne
    | cons c w' =>
      intro a ha
      cases ws with
      | nil =>
        simp only [joinSpace, List.head?_cons, Option.some.injEq] at ha
        exact ha ▸ hch c (List.mem_cons_self _ _)
      | cons w₂ ws' =>
        have : joinSpace ((c :: w') :: w₂ :: ws') =
            c :: (w' ++ ' ' :: joinSpace (w₂ :: ws')) := rfl
        rw [this, List.head?_cons, Option.some.injEq] at ha
        exact ha ▸ hch c (List.mem_cons_self _ _)

theorem joinSpace_last (W : List (List Char))
    (h : ∀ w ∈ W, w ≠ [] ∧ ∀ c ∈ w, isPySpace c = false) :
    ∀ a, (joinSpace W).getLast? = some a → isPySpace a = false := by
  induction W with
  | nil => simp [joinSpace]
  | cons w ws ih =>
    intro a ha
    cases ws with
    | nil =>
      have : a ∈ w := List.mem_of_mem_getLast? ha
      exact (h w (List.mem_cons_self _ _)).2 a this
    | cons w₂ ws' =>
      have hj : joinSpace (w :: w₂ :: ws') = w ++ ' ' :: joinSpace (w₂ :: ws') := rfl
      rw [hj, List.getLast?_append_of_ne_nil _ (by simp)] at ha
      have hjnn : joinSpace (w₂ :: ws') ≠ [] :=
        joinSpace_ne_nil _ (by simp)
          (fun v hv => (h v (List.mem_cons_of_mem w hv)).1)
      cases hcase : joinSpace (w₂ :: ws') with
      | nil => exact absurd hcase hjnn
      | cons b bs =>
        rw [hcase, List.getLast?_cons_cons, ← hcase] at ha
        exact ih (fun v hv => h v (List.mem_cons_of_mem w hv)) a ha

theorem joinSpace_chain (W : List (List Char))
    (h : ∀ w ∈ W, w ≠ [] ∧ ∀ c ∈ w, isPySpace c = false) :
    List.Chain' (fun a b => ¬(a = ' ' ∧ b = ' ')) (joinSpace W) := by
  induction W with
  | nil => exact List.chain'_nil
  | cons w ws ih =>
    cases ws with
    | nil => exact chain'_of_no_space w (h w (List.mem_cons_self _ _)).2
    | cons w₂ ws' =>
      have hj : joinSpace (w :: w₂ :: ws') = w ++ ' ' :: joinSpace (w₂ :: ws') := rfl
      rw [hj]
      have hrest : ∀ v ∈ w₂ :: ws', v ≠ [] ∧ ∀ c ∈ v, isPySpace c = false :=
        fun v hv => h v (List.mem_cons_of_mem w hv)
      apply List.chain'_append.mpr
      refine ⟨chain'_of_no_space w (h w (List.mem_cons_self _ _)).2, ?_, ?_⟩
      · apply List.chain'_cons'.mpr
        refine ⟨?_, ih hrest⟩
        intro y hy
        rintro ⟨_, hy'⟩
        have := joinSpace_head (w₂ :: ws') hrest y hy
        rw [hy'] at this
        simp [isPySpace] at this
      · intro x hx y hy
        rintro ⟨hx', _⟩
        have hxw : x ∈ w := List.mem_of_mem_getLast? hx
        have := (h w (List.mem_cons_self _ _)).2 x hxw
        rw [hx'] at this
        simp [isPySpace] at this

theorem chain'_no_decomp {R : Char → Char → Prop} {s l r : List Char} {a b : Char}
    (hch : List.Chain' R s) (hdec : s = l ++ a :: b :: r) : R a b := by
  subst hdec
  exact (List.chain'_cons.mp (List.chain'_append.mp hch).2.1).1

theorem contains_false_of_not_mem {l : List (List Char)} {w : List Char}
    (h : w ∉ l) : l.contains w = false := by
  cases hc : l.contains w with
  | false => rfl
  | true => exact absurd (List.elem_iff.mp hc) h

theorem not_mem_of_contains_false {l : List (List Char)} {w : List Char}
    (h : l.contains w = false) : w ∉ l := by
  intro hmem
  have htrue : l.contains w = true := List.elem_iff.mpr hmem
  rw [h] at htrue
  cases htrue

/-! ### Claim theorems for the Text Normalizer -/

/-- C4 (confirmed): for every input string, clean_text equals the reference
pipeline of the specification, section 4.1: lower-case, replace every bar
character with a space, split on whitespace, drop every token belonging to
the fixed stop-word set, and rejoin the remaining tokens with single
spaces; it is a pure total Lean function and the empty string normalizes
to the empty string. -/
theorem normalizer_reference (s : List Char) :
    clean_text s = normalize_spec s ∧ clean_text [] = [] := by
  constructor
  · show joinSpace _ = joinSpace _
    congr 1
    apply List.filter_congr
    intro w _
    by_cases hw : w ∈ noiseList
    · simp [hw, List.elem_iff.mpr hw]
    · simp [hw, contains_false_of_not_mem hw]
  · simp [clean_text, pyLower, replacePipe, splitWs_nil, joinSpace]

/-- C5 (confirmed): normalization is idempotent; applying clean_text twice
gives the same result as applying it once, for every input string. -/
theorem normalize_idempotent (x : List Char) :
    clean_text (clean_text x) = clean_text x := by
  rw [clean_text_eq_join x]
  exact clean_text_fixed (cleanToks x) (cleanToks_good x)

/-- C9 (confirmed): the output of clean_text contains no bar character, has
no leading and no trailing space, never contains two consecutive spaces,
and none of its whitespace-separated tokens belongs to the stop-word
set. -/
theorem clean_text_output_invariant (x : List Char) :
    '|' ∉ clean_text x ∧
    (clean_text x).head? ≠ some ' ' ∧
    (clean_text x).getLast? ≠ some ' ' ∧
    (∀ l r, clean_text x ≠ l ++ ' ' :: ' ' :: r) ∧
    ∀ w ∈ splitWs (clean_text x), w ∉ noiseList := by
  have hgood := cleanToks_good x
  have hsp : ∀ w ∈ cleanToks x, w ≠ [] ∧ ∀ c ∈ w, isPySpace c = false :=
    fun w hw => ⟨(hgood w hw).1.1, fun c hc => ((hgood w hw).1.2 c hc).1⟩
  refine ⟨?_, ?_, ?_, ?_, ?_⟩
  · intro hmem
    rw [clean_text_eq_join] at hmem
    rcases mem_joinSpace _ _ hmem with hsp' | ⟨w, hw, hcw⟩
    · cases hsp'
    · exact ((hgood w hw).1.2 _ hcw).2.2 rfl
  · intro hh
    rw [clean_text_eq_join] at hh
    have := joinSpace_head (cleanToks x) hsp ' ' hh
    simp [isPySpace] at this
  · intro hl
    rw [clean_text_eq_join] at hl
    have := joinSpace_last (cleanToks x) hsp ' ' hl
    simp [isPySpace] at this
  · intro l r heq
    rw [clean_text_eq_join] at heq
    exact chain'_no_decomp (joinSpace_chain (cleanToks x) hsp) heq ⟨rfl, rfl⟩
  · intro w hw
    rw [clean_text_eq_join, splitWs_joinSpace _ hsp] at hw
    exact not_mem_of_contains_false (hgood w hw).2

/-! ### Claim theorems for the Rule Matcher and rule precedence -/

theorem findRule_eq_find? (clean : List Char) (rs : List (List Char × Category)) :
    findRule clean rs = (rs.find? (fun p => inSubstr p.1 clean)).map Prod.snd := by
  induction rs with
  | nil => rfl
  | cons p rest ih =>
    cases p with
    | mk trig cat =>
      by_cases h : inSubstr trig clean
      · simp [findRule, h, List.find?_cons_of_pos]
      · have h' : inSubstr trig clean = false := eq_false_of_ne_true h
        simp [findRule, h', List.find?_cons_of_neg, ih]

/-- C6 (confirmed): hard_rules_match lower-cases the raw text, scans the
rule table in its fixed insertion order and returns the category of the
first entry whose trigger occurs as a substring of the lowered text; it is
a total function and returns the none sentinel exactly when no trigger
occurs as a substring. -/
theorem rule_matcher_total_first_match (text : List Char) :
    hard_rules_match text =
      (rulesList.find? (fun p => inSubstr p.1 (pyLower text))).map Prod.snd ∧
    (hard_rules_match text = none ↔
      ∀ p ∈ rulesList, ¬ ∃ l r, pyLower text = l ++ p.1 ++ r) := by
  constructor
  · exact findRule_eq_find? _ _
  · show findRule (pyLower text) rulesList = none ↔ _
    rw [findRule_eq_find?, Option.map_eq_none', List.find?_eq_none]
    constructor
    · intro h p hp hsub
      exact h p hp (by simpa using (inSubstr_iff p.1 (pyLower text)).mpr hsub)
    · intro h p hp hpred
      exact h p hp ((inSubstr_iff p.1 (pyLower text)).mp (by simpa using hpred))

/-- C1 counterexample: the input containing both the trigger перевод and
the trigger мышь contains мышь, whose mapped category code is
wants:electronics, yet classify returns skip:finance, the category of the
earlier trigger перевод; so the claim read over every contained trigger is
false. -/
theorem rule_precedence_counterexample :
    inSubstr "мышь".data (pyLower "перевод мышь".data) = true ∧
    ("мышь".data, Category.ELECTRONICS) ∈ rulesList ∧
    Category.ELECTRONICS.value = "wants:electronics" ∧
    classify (fun v => v) cmTrivial "перевод мышь".data = "skip:finance" ∧
    ("skip:finance" : String) ≠ "wants:electronics" := by
  refine ⟨by decide, by decide, rfl, by decide, by decide⟩

/-- C1 (corrected): for every embedding backend and classifier state, when
some rule-table trigger occurs in the lower-cased input, classify returns
the code of the first matching trigger in table order, regardless of the
semantic path; in particular the two example inputs of the claim return
other:digital and wants:electronics respectively. -/
theorem rule_precedence_first_match (fnorm : Vec → Vec) (md : ClassifierModel) :
    (∀ text p, rulesList.find? (fun q => inSubstr q.1 (pyLower text)) = some p →
      classify fnorm md text = p.2.value) ∧
    classify fnorm md "заплатил за VPN подписку".data = "other:digital" ∧
    classify fnorm md "мышь для компа".data = "wants:electronics" := by
  refine ⟨?_, ?_, ?_⟩
  · intro text p hfind
    have hrule : hard_rules_match text = some p.2 := by
      show findRule (pyLower text) rulesList = some p.2
      rw [findRule_eq_find?, hfind]
      rfl
    show (predict fnorm md text).value = p.2.value
    unfold predict
    rw [hrule]
  · have hrule : hard_rules_match "заплатил за VPN подписку".data =
        some Category.DIGITAL := by decide
    show (predict fnorm md _).value = _
    unfold predict
    rw [hrule]
    rfl
  · have hrule : hard_rules_match "мышь для компа".data =
        some Category.ELECTRONICS := by decide
    show (predict fnorm md _).value = _
    unfold predict
    rw [hrule]
    rfl

/-- C1 witness: the amended theorem applied at a concrete backend, state,
input and rule entry, with the first-match hypothesis discharged by
evaluation. -/
theorem rule_precedence_first_match_witness :
    classify (fun v => v) cmTrivial "мышь для компа".data =
      ("мышь".data, Category.ELECTRONICS).2.value :=
  (rule_precedence_first_match (fun v => v) cmTrivial).1 "мышь для компа".data
    ("мышь".data, Category.ELECTRONICS) (by decide)

/-! ### Argmax lemmas and claim theorems for the Semantic Classifier -/

theorem argmaxAux_spec (xs : List ℚ) :
    ∀ (front : List ℚ) (best : ℕ) (bv : ℚ),
      best < front.length →
      front.getD best 0 = bv →
      (∀ k < front.length, front.getD k 0 ≤ bv) →
      argmaxAux front.length best bv xs < (front ++ xs).length ∧
        ∀ k < (front ++ xs).length,
          (front ++ xs).getD k 0 ≤ (front ++ xs).getD (argmaxAux front.length best bv xs) 0 := by
  induction xs with
  | nil =>
    intro front best bv hb hv hmax
    simp only [argmaxAux, List.append_nil]
    refine ⟨hb, fun k hk => ?_⟩
    rw [hv]
    exact hmax k hk
  | cons x xs ih =>
    intro front best bv hb hv hmax
    have hassoc : front ++ x :: xs = (front ++ [x]) ++ xs := by
      rw [List.append_assoc]
      rfl
    have hlen : (front ++ [x]).length = front.length + 1 := by
      simp
    have hgx : (front ++ [x]).getD front.length 0 = x := by
      rw [List.getD_append_right front [x] 0 front.length le_rfl]
      simp
    simp only [argmaxAux]
    by_cases hlt : bv < x
    · rw [if_pos hlt]
      have hmax' : ∀ k < (front ++ [x]).length, (front ++ [x]).getD k 0 ≤ x := by
        intro k hk
        rw [hlen] at hk
        rcases Nat.lt_succ_iff_lt_or_eq.mp hk with hk' | rfl
        · rw [List.getD_append front [x] 0 k hk']
          exact le_of_lt (lt_of_le_of_lt (hmax k hk') hlt)
        · rw [hgx]
      have := ih (front ++ [x]) front.length x (by rw [hlen]; omega) hgx hmax'
      rw [hlen] at this
      rw [hassoc]
      exact this
    · rw [if_neg hlt]
      have hmax' : ∀ k < (front ++ [x]).length, (front ++ [x]).getD k 0 ≤ bv := by
        intro k hk
        rw [hlen] at hk
        rcases Nat.lt_succ_iff_lt_or_eq.mp hk with hk' | rfl
        · rw [List.getD_append front [x] 0 k hk']
          exact hmax k hk'
        · rw [hgx]
          exact le_of_not_lt hlt
      have hb' : best < (front ++ [x]).length := by
        rw [hlen]
        omega
      have hv' : (front ++ [x]).getD best 0 = bv := by
        rw [List.getD_append front [x] 0 best hb]
        exact hv
      have := ih (front ++ [x]) best bv hb' hv' hmax'
      rw [hlen] at this
      rw [hassoc]
      exact this

theorem argmaxIdx_spec (l : List ℚ) (h : l ≠ []) :
    argmaxIdx l < l.length ∧ ∀ k < l.length, l.getD k 0 ≤ l.getD (argmaxIdx l) 0 := by
  cases l with
  | nil => exact absurd rfl h
  | cons x xs =>
    have hone : ([x] : List ℚ).length = 1 := rfl
    have := argmaxAux_spec xs [x] 0 x (by simp) (by simp) (by
      intro k hk
      rw [hone] at hk
      interval_cases k
      simp)
    rw [hone] at this
    simpa using this

theorem semScores_cmBoundary :
    semScores (fun v => v) cmBoundary [] = [(82 : ℚ) / 100] := by
  simp [semScores, queryEmb, cmBoundary, dot, queryOf]

/-- C2 counterexample: a concrete state and input whose single anchor score
equals the threshold exactly; there predict returns the winning category
FOOD, not UNKNOWN, refuting the claim half that says equality yields
UNKNOWN. -/
theorem threshold_boundary_counterexample :
    semScores (fun v => v) cmBoundary [] = [(82 : ℚ) / 100] ∧
    cmBoundary.threshold = (82 : ℚ) / 100 ∧
    hard_rules_match [] = none ∧
    predict (fun v => v) cmBoundary [] = Category.FOOD ∧
    Category.FOOD ≠ Category.UNKNOWN := by
  refine ⟨semScores_cmBoundary, rfl, by decide, ?_, by decide⟩
  show (match hard_rules_match [] with
    | some rule_result => rule_result
    | none =>
      let scores := semScores (fun v => v) cmBoundary []
      let best_idx := argmaxIdx scores
      let confidence := scores.getD best_idx 0
      if confidence < cmBoundary.threshold then Category.UNKNOWN
      else cmBoundary.anchor_to_cat.getD best_idx Category.UNKNOWN) = Category.FOOD
  rw [show hard_rules_match ([] : List Char) = none from by decide]
  simp only [semScores_cmBoundary]
  simp [argmaxIdx, argmaxAux, cmBoundary, lt_irrefl]

/-- C2 (corrected): for every embedding backend, classifier state and
rule-free input whose anchor scores are all at most the threshold and
whose maximum score equals the threshold exactly, predict returns the
category stored at the winning index, not UNKNOWN: the strict less-than
comparison means equality does not trigger the UNKNOWN branch. -/
theorem threshold_boundary_eq_returns_winner (fnorm : Vec → Vec) (md : ClassifierModel)
    (text : List Char)
    (hrule : hard_rules_match text = none)
    (hub : ∀ k < (semScores fnorm md text).length,
      (semScores fnorm md text).getD k 0 ≤ md.threshold)
    (hex : ∃ k, k < (semScores fnorm md text).length ∧
      (semScores fnorm md text).getD k 0 = md.threshold) :
    predict fnorm md text =
      md.anchor_to_cat.getD (argmaxIdx (semScores fnorm md text)) Category.UNKNOWN := by
  obtain ⟨k, hk, hkv⟩ := hex
  have hne : semScores fnorm md text ≠ [] := by
    intro h0
    rw [h0] at hk
    simp at hk
  obtain ⟨hlt, hmax⟩ := argmaxIdx_spec _ hne
  have hconf_le : (semScores fnorm md text).getD (argmaxIdx (semScores fnorm md text)) 0 ≤
      md.threshold := hub _ hlt
  have hconf_ge : md.threshold ≤
      (semScores fnorm md text).getD (argmaxIdx (semScores fnorm md text)) 0 :=
    hkv ▸ hmax k hk
  show (match hard_rules_match text with
    | some rule_result => rule_result
    | none =>
      let scores := semScores fnorm md text
      let best_idx := argmaxIdx scores
      let confidence := scores.getD best_idx 0
      if confidence < md.threshold then Category.UNKNOWN
      else md.anchor_to_cat.getD best_idx Category.UNKNOWN) = _
  rw [hrule]
  simp only []
  rw [if_neg (not_lt.mpr hconf_ge)]

/-- C2 witness: the corrected theorem applied to the concrete at-threshold
state and input, with all hypotheses discharged by evaluation. -/
theorem threshold_boundary_eq_returns_winner_witness :
    predict (fun v => v) cmBoundary [] =
      cmBoundary.anchor_to_cat.getD
        (argmaxIdx (semScores (fun v => v) cmBoundary [])) Category.UNKNOWN :=
  threshold_boundary_eq_returns_winner (fun v => v) cmBoundary []
    (by decide)
    (by
      intro k hk
      rw [semScores_cmBoundary] at hk ⊢
      simp only [List.length_cons, List.length_nil] at hk
      interval_cases k
      simp [cmBoundary])
    ⟨0, by rw [semScores_cmBoundary]; simp, by rw [semScores_cmBoundary]; simp [cmBoundary]⟩

/-- C3 (confirmed): on every input with no rule-table hit, predict performs
exactly the semantic pipeline of the specification: normalize, prepend the
query prefix, encode and normalize through the external backend, score
every anchor row by dot product, take the argmax index, compare the
winning score against the threshold with strict less-than, and return
UNKNOWN below the threshold and the category at the winning index
otherwise. -/
theorem predict_refines_semantic_spec (fnorm : Vec → Vec) (md : ClassifierModel)
    (text : List Char) (hrule : hard_rules_match text = none) :
    predict fnorm md text = classify_semantic_spec fnorm md text := by
  show (match hard_rules_match text with
    | some rule_result => rule_result
    | none =>
      let scores := semScores fnorm md text
      let best_idx := argmaxIdx scores
      let confidence := scores.getD best_idx 0
      if confidence < md.threshold then Category.UNKNOWN
      else md.anchor_to_cat.getD best_idx Category.UNKNOWN) = _
  rw [hrule]
  rfl

/-- C3 witness: the refinement theorem applied at a concrete backend, state
and rule-free input. -/
theorem predict_refines_semantic_spec_witness :
    predict (fun v => v) cmTrivial "зжж".data =
      classify_semantic_spec (fun v => v) cmTrivial "зжж".data :=
  predict_refines_semantic_spec (fun v => v) cmTrivial "зжж".data (by decide)

/-! ### Claim theorems for the facade wrapper and the superseded classifier -/

/-- C7 (confirmed): with the embedding backend modelled as a pure function,
two consecutive classify calls on the wrapper with the same input return
the same category code, the second call running on the state the first
call left behind; there is no hidden randomness or state mutation
affecting the result. -/
theorem classify_deterministic (fnorm : Vec → Vec) (st : ExpenseClassifierState)
    (text : List Char) :
    (classifyCall fnorm st text).1 =
      (classifyCall fnorm ((classifyCall fnorm st text).2) text).1 :=
  rfl

/-- C8 (confirmed): a classify call performs no per-call mutation: the
state after the call is the state before it, and in particular the anchor
embedding matrix, the parallel category list and the threshold are
unchanged. -/
theorem classify_frame (fnorm : Vec → Vec) (st : ExpenseClassifierState)
    (text : List Char) :
    (classifyCall fnorm st text).2 = st ∧
    (classifyCall fnorm st text).2.model_data.anchor_embeddings =
      st.model_data.anchor_embeddings ∧
    (classifyCall fnorm st text).2.model_data.anchor_to_cat =
      st.model_data.anchor_to_cat ∧
    (classifyCall fnorm st text).2.model_data.threshold = st.model_data.threshold :=
  ⟨rfl, rfl, rfl, rfl⟩

theorem kwClassifyGo_none (lowered : List Char) (rs : List (List Char × String))
    (h : ∀ p ∈ rs, inSubstr p.1 lowered = false) :
    kwClassifyGo lowered rs = "needs:food" := by
  induction rs with
  | nil => rfl
  | cons p rest ih =>
    cases p with
    | mk k v =>
      have hk : inSubstr k lowered = false := h (k, v) (List.mem_cons_self _ _)
      simp only [kwClassifyGo, hk, Bool.false_eq_true, if_false]
      exact ih fun q hq => h q (List.mem_cons_of_mem _ hq)

theorem kwClassifyGo_result (lowered : List Char) (rs : List (List Char × String)) :
    kwClassifyGo lowered rs = "needs:food" ∨
      ∃ p ∈ rs, kwClassifyGo lowered rs = p.2 := by
  induction rs with
  | nil => exact Or.inl rfl
  | cons p rest ih =>
    cases p with
    | mk k v =>
      by_cases hk : inSubstr k lowered
      · exact Or.inr ⟨(k, v), List.mem_cons_self _ _, by simp [kwClassifyGo, hk]⟩
      · have hk' : inSubstr k lowered = false := eq_false_of_ne_true hk
        simp only [kwClassifyGo, hk', Bool.false_eq_true, if_false]
        rcases ih with h0 | ⟨q, hq, hqv⟩
        · exact Or.inl h0
        · exact Or.inr ⟨q, List.mem_cons_of_mem _ hq, hqv⟩

/-- C10 (confirmed): the superseded keyword classifier returns the default
code needs:food whenever no keyword of its map occurs in the lower-cased
text, the empty string included, and it never returns unknown:check_me on
any input. -/
theorem trivial_classifier_default (text : List Char) :
    ((∀ p ∈ KEYWORDS_MAP, inSubstr p.1 (pyLower text) = false) →
      kwClassify text = "needs:food") ∧
    kwClassify text ≠ "unknown:check_me" := by
  constructor
  · intro h
    exact kwClassifyGo_none (pyLower text) KEYWORDS_MAP h
  · rcases kwClassifyGo_result (pyLower text) KEYWORDS_MAP with h0 | ⟨q, hq, hqv⟩
    · show kwClassifyGo (pyLower text) KEYWORDS_MAP ≠ _
      rw [h0]
      decide
    · show kwClassifyGo (pyLower text) KEYWORDS_MAP ≠ _
      rw [hqv]
      have hall : ∀ p ∈ KEYWORDS_MAP, p.2 ≠ "unknown:check_me" := by decide
      exact hall q hq

/-- C10 witness: the default-category theorem applied to the empty string,
with the no-keyword hypothesis discharged by evaluation. -/
theorem trivial_classifier_default_witness :
    kwClassify [] = "needs:food" :=
  (trivial_classifier_default []).1 (by decide)
